import Mathlib

/-
  Verification of the saltyperk/search repository: a Bitcoin puzzle key-range
  scanner (p73.py, p732.py, range.py).  The Python sources are shallowly
  embedded below: bytes are `List Nat` (each < 256), Python strings are
  `List Char`, fallible derivation returns `Option`, and the process-level
  scan loops become fuel-indexed recursions.  The cryptographic primitives
  used by the scripts (SHA-256, RIPEMD-160, secp256k1 point arithmetic,
  Base58Check from the `base58` library) are embedded as the standard
  algorithms the libraries implement.
-/

namespace BTCScan

set_option maxRecDepth 100000

/-! ## Positional-numeral machinery (big-endian digits of a natural number)

`digitsBE base n` is the minimal big-endian digit list of `n` (empty for 0):
exactly what `int.from_bytes`/`to_bytes` and the base58 library's divmod
loops compute.  `valBE` is the inverse evaluation. -/

def digitsBEAux (base : Nat) : Nat → Nat → List Nat
  | 0, _ => []
  | f + 1, n => if n = 0 then [] else digitsBEAux base f (n / base) ++ [n % base]

def digitsBE (base n : Nat) : List Nat := digitsBEAux base n n

def valBE (base : Nat) (l : List Nat) : Nat := l.foldl (fun a d => a * base + d) 0

/-- Number of leading zero bytes, as counted by `lstrip(b"\x00")`. -/
def leadingZeros : List Nat → Nat
  | [] => 0
  | b :: t => if b = 0 then leadingZeros t + 1 else 0

/-- The list with its leading zero bytes removed. -/
def stripZeros : List Nat → List Nat
  | [] => []
  | b :: t => if b = 0 then stripZeros t else b :: t

/-- Fixed-width big-endian byte encoding, as in `int.to_bytes(w, "big")`. -/
def bytesBE : Nat → Nat → List Nat
  | 0, _ => []
  | w + 1, x => bytesBE w (x / 256) ++ [x % 256]

/-- Fixed-width little-endian byte encoding. -/
def bytesLE : Nat → Nat → List Nat
  | 0, _ => []
  | w + 1, x => x % 256 :: bytesLE w (x / 256)

/-! ## SHA-256 (hashlib.sha256) -/

def w32 (x : Nat) : Nat := x % 4294967296

def rotr32 (n x : Nat) : Nat := w32 (Nat.lor (x >>> n) (x <<< (32 - n)))

def shaCh (x y z : Nat) : Nat := Nat.xor (Nat.land x y) (Nat.land (Nat.xor x 4294967295) z)

def shaMaj (x y z : Nat) : Nat :=
  Nat.xor (Nat.xor (Nat.land x y) (Nat.land x z)) (Nat.land y z)

def bigSigma0 (x : Nat) : Nat := Nat.xor (Nat.xor (rotr32 2 x) (rotr32 13 x)) (rotr32 22 x)

def bigSigma1 (x : Nat) : Nat := Nat.xor (Nat.xor (rotr32 6 x) (rotr32 11 x)) (rotr32 25 x)

def smallSigma0 (x : Nat) : Nat := Nat.xor (Nat.xor (rotr32 7 x) (rotr32 18 x)) (x >>> 3)

def smallSigma1 (x : Nat) : Nat := Nat.xor (Nat.xor (rotr32 17 x) (rotr32 19 x)) (x >>> 10)

def sha256K : List Nat :=
  [1116352408, 1899447441, 3049323471, 3921009573, 961987163, 1508970993,
   2453635748, 2870763221, 3624381080, 310598401, 607225278, 1426881987,
   1925078388, 2162078206, 2614888103, 3248222580, 3835390401, 4022224774,
   264347078, 604807628, 770255983, 1249150122, 1555081692, 1996064986,
   2554220882, 2821834349, 2952996808, 3210313671, 3336571891, 3584528711,
   113926993, 338241895, 666307205, 773529912, 1294757372, 1396182291,
   1695183700, 1986661051, 2177026350, 2456956037, 2730485921, 2820302411,
   3259730800, 3345764771, 3516065817, 3600352804, 4094571909, 275423344,
   430227734, 506948616, 659060556, 883997877, 958139571, 1322822218,
   1537002063, 1747873779, 1955562222, 2024104815, 2227730452, 2361852424,
   2428436474, 2756734187, 3204031479, 3329325298]

structure Sha256State where
  a : Nat
  b : Nat
  c : Nat
  d : Nat
  e : Nat
  f : Nat
  g : Nat
  h : Nat

def sha256Init : Sha256State :=
  ⟨1779033703, 3144134277, 1013904242, 2773480762, 1359893119, 2600822924, 528734635, 1541459225⟩

/-- Group a byte list into big-endian 32-bit words. -/
def beWords : List Nat → List Nat
  | b0 :: b1 :: b2 :: b3 :: rest =>
      (b0 * 16777216 + b1 * 65536 + b2 * 256 + b3) :: beWords rest
  | _ => []

def shaExtendLoop : Nat → List Nat → List Nat
  | 0, w => w
  | n + 1, w =>
      let t := w.length
      let nw := w32 (smallSigma1 (w.getD (t - 2) 0) + w.getD (t - 7) 0 +
                     smallSigma0 (w.getD (t - 15) 0) + w.getD (t - 16) 0)
      shaExtendLoop n (w ++ [nw])

def shaSchedule (ws : List Nat) : List Nat := shaExtendLoop 48 ws

def shaRound (st : Sha256State) (kt wt : Nat) : Sha256State :=
  let t1 := w32 (st.h + bigSigma1 st.e + shaCh st.e st.f st.g + kt + wt)
  let t2 := w32 (bigSigma0 st.a + shaMaj st.a st.b st.c)
  ⟨w32 (t1 + t2), st.a, st.b, st.c, w32 (st.d + t1), st.e, st.f, st.g⟩

def shaRounds : List Nat → List Nat → Sha256State → Sha256State
  | k :: ks, w :: ws, st => shaRounds ks ws (shaRound st k w)
  | _, _, st => st

def shaBlock (st : Sha256State) (block : List Nat) : Sha256State :=
  let e := shaRounds sha256K (shaSchedule (beWords block)) st
  ⟨w32 (st.a + e.a), w32 (st.b + e.b), w32 (st.c + e.c), w32 (st.d + e.d),
   w32 (st.e + e.e), w32 (st.f + e.f), w32 (st.g + e.g), w32 (st.h + e.h)⟩

/-- SHA padding: append 0x80, zeros to 56 mod 64, then 8-byte big-endian bit length. -/
def shaPad (m : List Nat) : List Nat :=
  m ++ [128] ++ List.replicate ((55 + 64 - m.length % 64) % 64) 0 ++ bytesBE 8 (8 * m.length)

def chunk64 : Nat → List Nat → List (List Nat)
  | 0, _ => []
  | n + 1, l => l.take 64 :: chunk64 n (l.drop 64)

def w32ToBytesBE (w : Nat) : List Nat :=
  [w / 16777216 % 256, w / 65536 % 256, w / 256 % 256, w % 256]

def sha256 (m : List Nat) : List Nat :=
  let padded := shaPad m
  let st := (chunk64 (padded.length / 64) padded).foldl shaBlock sha256Init
  w32ToBytesBE st.a ++ w32ToBytesBE st.b ++ w32ToBytesBE st.c ++ w32ToBytesBE st.d ++
  w32ToBytesBE st.e ++ w32ToBytesBE st.f ++ w32ToBytesBE st.g ++ w32ToBytesBE st.h

/-! ## RIPEMD-160 (hashlib.new("ripemd160")) -/

def rol32 (s x : Nat) : Nat := Nat.lor (w32 (x <<< s)) (x >>> (32 - s))

def rmdF (j x y z : Nat) : Nat :=
  if j < 16 then Nat.xor (Nat.xor x y) z
  else if j < 32 then Nat.lor (Nat.land x y) (Nat.land (Nat.xor x 4294967295) z)
  else if j < 48 then Nat.xor (Nat.lor x (Nat.xor y 4294967295)) z
  else if j < 64 then Nat.lor (Nat.land x z) (Nat.land y (Nat.xor z 4294967295))
  else Nat.xor x (Nat.lor y (Nat.xor z 4294967295))

def rmdKL (j : Nat) : Nat :=
  if j < 16 then 0 else if j < 32 then 0x5A827999 else if j < 48 then 0x6ED9EBA1
  else if j < 64 then 0x8F1BBCDC else 0xA953FD4E

def rmdKR (j : Nat) : Nat :=
  if j < 16 then 0x50A28BE6 else if j < 32 then 0x5C4DD124 else if j < 48 then 0x6D703EF3
  else if j < 64 then 0x7A6D76E9 else 0

def rmdRL : List Nat :=
  [0, 1, 2, 3, 4, 5, 6, 7, 8, 9, 10, 11, 12, 13, 14, 15,
   7, 4, 13, 1, 10, 6, 15, 3, 12, 0, 9, 5, 2, 14, 11, 8,
   3, 10, 14, 4, 9, 15, 8, 1, 2, 7, 0, 6, 13, 11, 5, 12,
   1, 9, 11, 10, 0, 8, 12, 4, 13, 3, 7, 15, 14, 5, 6, 2,
   4, 0, 5, 9, 7, 12, 2, 10, 14, 1, 3, 8, 11, 6, 15, 13]

def rmdRR : List Nat :=
  [5, 14, 7, 0, 9, 2, 11, 4, 13, 6, 15, 8, 1, 10, 3, 12,
   6, 11, 3, 7, 0, 13, 5, 10, 14, 15, 8, 12, 4, 9, 1, 2,
   15, 5, 1, 3, 7, 14, 6, 9, 11, 8, 12, 2, 10, 0, 4, 13,
   8, 6, 4, 1, 3, 11, 15, 0, 5, 12, 2, 13, 9, 7, 10, 14,
   12, 15, 10, 4, 1, 5, 8, 7, 6, 2, 13, 14, 0, 3, 9, 11]

def rmdSL : List Nat :=
  [11, 14, 15, 12, 5, 8, 7, 9, 11, 13, 14, 15, 6, 7, 9, 8,
   7, 6, 8, 13, 11, 9, 7, 15, 7, 12, 15, 9, 11, 7, 13, 12,
   11, 13, 6, 7, 14, 9, 13, 15, 14, 8, 13, 6, 5, 12, 7, 5,
   11, 12, 14, 15, 14, 15, 9, 8, 9, 14, 5, 6, 8, 6, 5, 12,
   9, 15, 5, 11, 6, 8, 13, 12, 5, 12, 13, 14, 11, 8, 5, 6]

def rmdSR : List Nat :=
  [8, 9, 9, 11, 13, 15, 15, 5, 7, 7, 8, 11, 14, 14, 12, 6,
   9, 13, 15, 7, 12, 8, 9, 11, 7, 7, 12, 7, 6, 15, 13, 11,
   9, 7, 15, 11, 8, 6, 6, 14, 12, 13, 5, 14, 13, 13, 7, 5,
   15, 5, 8, 11, 14, 14, 6, 14, 6, 9, 12, 9, 12, 5, 15, 8,
   8, 5, 12, 9, 12, 5, 14, 6, 8, 13, 6, 5, 15, 13, 11, 11]

structure RmdLine where
  a : Nat
  b : Nat
  c : Nat
  d : Nat
  e : Nat

def rmdStep (x : List Nat) (fj kj ri si : Nat) (st : RmdLine) : RmdLine :=
  let t := w32 (rol32 si (w32 (st.a + rmdF fj st.b st.c st.d + x.getD ri 0 + kj)) + st.e)
  ⟨st.e, t, st.b, rol32 10 st.c, st.d⟩

/-- Group a byte list into little-endian 32-bit words. -/
def leWords : List Nat → List Nat
  | b0 :: b1 :: b2 :: b3 :: rest =>
      (b0 + b1 * 256 + b2 * 65536 + b3 * 16777216) :: leWords rest
  | _ => []

def rmdLoop (x : List Nat) : Nat → Nat → RmdLine → RmdLine → RmdLine × RmdLine
  | 0, _, l, r => (l, r)
  | n + 1, j, l, r =>
      rmdLoop x n (j + 1)
        (rmdStep x j (rmdKL j) (rmdRL.getD j 0) (rmdSL.getD j 0) l)
        (rmdStep x (79 - j) (rmdKR j) (rmdRR.getD j 0) (rmdSR.getD j 0) r)

structure RmdState where
  h0 : Nat
  h1 : Nat
  h2 : Nat
  h3 : Nat
  h4 : Nat

def rmdInit : RmdState := ⟨0x67452301, 0xEFCDAB89, 0x98BADCFE, 0x10325476, 0xC3D2E1F0⟩

def rmdBlock (st : RmdState) (block : List Nat) : RmdState :=
  let x := leWords block
  let lr := rmdLoop x 80 0 ⟨st.h0, st.h1, st.h2, st.h3, st.h4⟩ ⟨st.h0, st.h1, st.h2, st.h3, st.h4⟩
  let l := lr.1
  let r := lr.2
  ⟨w32 (st.h1 + l.c + r.d), w32 (st.h2 + l.d + r.e), w32 (st.h3 + l.e + r.a),
   w32 (st.h4 + l.a + r.b), w32 (st.h0 + l.b + r.c)⟩

/-- RIPEMD padding: like SHA but the 8-byte length is little-endian. -/
def rmdPad (m : List Nat) : List Nat :=
  m ++ [128] ++ List.replicate ((55 + 64 - m.length % 64) % 64) 0 ++ bytesLE 8 (8 * m.length)

def ripemd160 (m : List Nat) : List Nat :=
  let padded := rmdPad m
  let st := (chunk64 (padded.length / 64) padded).foldl rmdBlock rmdInit
  bytesLE 4 st.h0 ++ bytesLE 4 st.h1 ++ bytesLE 4 st.h2 ++ bytesLE 4 st.h3 ++ bytesLE 4 st.h4

/-! ## secp256k1 (the curve arithmetic performed by the ecdsa / fastecdsa libraries) -/

def secpP : Nat := 2 ^ 256 - 2 ^ 32 - 977

/-- The secp256k1 group order: `ecdsa.SigningKey.from_string` rejects secret
exponents outside `[1, secpN)`. -/
def secpN : Nat := 0xFFFFFFFFFFFFFFFFFFFFFFFFFFFFFFFEBAAEDCE6AF48A03BBFD25E8CD0364141

def secpGx : Nat := 0x79BE667EF9DCBBAC55A06295CE870B07029BFCDB2DCE28D959F2815B16F81798

def secpGy : Nat := 0x483ADA7726A3C4655DA4FBFC0E1108A8FD17B448A68554199C47D08FFB10D4B8

def powModAux : Nat → Nat → Nat → Nat → Nat → Nat
  | 0, _, _, _, acc => acc
  | fuel + 1, m, b, e, acc =>
      if e = 0 then acc
      else powModAux fuel m (b * b % m) (e / 2) (if e % 2 = 1 then acc * b % m else acc)

def powMod (b e m : Nat) : Nat := powModAux 256 m (b % m) e (1 % m)

def fAdd (x y : Nat) : Nat := (x + y) % secpP

def fSub (x y : Nat) : Nat := (x + secpP - y % secpP) % secpP

def fMul (x y : Nat) : Nat := x * y % secpP

def fInv (x : Nat) : Nat := powMod x (secpP - 2) secpP

/-- Affine point: `none` is the point at infinity. -/
def ECPoint : Type := Option (Nat × Nat)

def ecDouble : ECPoint → ECPoint
  | none => none
  | some (x, y) =>
      if y = 0 then none
      else
        let l := fMul (fMul 3 (fMul x x)) (fInv (fMul 2 y))
        let xr := fSub (fMul l l) (fMul 2 x)
        let yr := fSub (fMul l (fSub x xr)) y
        some (xr, yr)

def ecAdd : ECPoint → ECPoint → ECPoint
  | none, q => q
  | p, none => p
  | some (x1, y1), some (x2, y2) =>
      if x1 = x2 then
        if (y1 + y2) % secpP = 0 then none else ecDouble (some (x1, y1))
      else
        let l := fMul (fSub y2 y1) (fInv (fSub x2 x1))
        let xr := fSub (fSub (fMul l l) x1) x2
        let yr := fSub (fMul l (fSub x1 xr)) y1
        some (xr, yr)

def ecMulAux : Nat → Nat → ECPoint → ECPoint
  | 0, _, _ => none
  | fuel + 1, k, p =>
      if k = 0 then none
      else
        let q := ecMulAux fuel (k / 2) (ecDouble p)
        if k % 2 = 1 then ecAdd p q else q

def ecMul (k : Nat) (p : ECPoint) : ECPoint := ecMulAux 257 k p

/-- Uncompressed SEC1 serialization `0x04 ‖ X ‖ Y` of `k·G`, as built by
`b"\x04" + vk.to_string()` in p73.py and p732.py. -/
def pubkeyBytes (k : Nat) : List Nat :=
  match ecMul k (some (secpGx, secpGy)) with
  | none => []
  | some (x, y) => 4 :: (bytesBE 32 x ++ bytesBE 32 y)

/-! ## Base58 / Base58Check (the base58 library) -/

def b58alphabet : List Char :=
  ['1','2','3','4','5','6','7','8','9','A','B','C','D','E','F','G','H','J','K','L','M','N','P','Q','R','S','T','U','V','W','X','Y','Z','a','b','c','d','e','f','g','h','i','j','k','m','n','o','p','q','r','s','t','u','v','w','x','y','z']

def b58encode (v : List Nat) : List Char :=
  List.replicate (leadingZeros v) '1' ++
    (digitsBE 58 (valBE 256 v)).map (fun d => b58alphabet.getD d ' ')

def b58charIndexAux : Nat → List Char → Char → Option Nat
  | _, [], _ => none
  | i, a :: t, c => if a = c then some i else b58charIndexAux (i + 1) t c

def b58charIndex (c : Char) : Option Nat := b58charIndexAux 0 b58alphabet c

def leadingOnes : List Char → Nat
  | [] => 0
  | c :: t => if c = '1' then leadingOnes t + 1 else 0

def charsToDigits : List Char → Option (List Nat)
  | [] => some []
  | c :: t =>
      match b58charIndex c, charsToDigits t with
      | some d, some ds => some (d :: ds)
      | _, _ => none

def b58decode (s : List Char) : Option (List Nat) :=
  match charsToDigits (s.drop (leadingOnes s)) with
  | none => none
  | some ds => some (List.replicate (leadingOnes s) 0 ++ digitsBE 256 (valBE 58 ds))

def b58decode_check (s : List Char) : Option (List Nat) :=
  match b58decode s with
  | none => none
  | some d =>
      let payload := d.take (d.length - 4)
      let chk := d.drop (d.length - 4)
      if (sha256 (sha256 payload)).take 4 = chk then some payload else none

/-! ## The address-construction tail shared by both scripts

This is lines 72-80 of p73.py (`private_key_to_address`) and lines 104-106 of
p732.py (`batch_scan`, after a match): version byte `0x00`, 4-byte
double-SHA-256 checksum, Base58 encoding. -/

def hash160ToAddress (h : List Nat) : List Char :=
  let versioned := 0 :: h
  let checksum := (sha256 (sha256 versioned)).take 4
  b58encode (versioned ++ checksum)

/-- p732.py `fast_private_to_hash160`: hash160 of the uncompressed public key.
`none` models the exception raised for a secret exponent outside `[1, secpN)`
(caught by the callers' `try/except`). -/
def fast_private_to_hash160 (k : Nat) : Option (List Nat) :=
  if 1 ≤ k ∧ k < secpN then some (ripemd160 (sha256 (pubkeyBytes k))) else none

/-- p73.py `private_key_to_address`: the full pipeline from private-key integer
to Base58Check address string; `none` models the per-candidate exception. -/
def private_key_to_address (k : Nat) : Option (List Char) :=
  if 1 ≤ k ∧ k < secpN then some (hash160ToAddress (ripemd160 (sha256 (pubkeyBytes k))))
  else none

/-! ## p73.py: BTCPuzzleScanner and the sequential main loop -/

/-- The `puzzle_addresses` dictionary of p73.py (lines 38-47). -/
def puzzle_addresses_73 : List (Nat × List Char) := [
  (1, ['1','B','g','G','Z','9','t','c','N','4','r','m','9','K','B','z','D','n','7','K','p','r','Q','z','8','7','S','Z','2','6','S','A','M','H']),
  (2, ['1','C','U','N','E','B','j','Y','r','C','n','2','y','1','S','d','i','U','M','o','h','a','K','U','i','4','w','p','P','3','2','6','L','b']),
  (3, ['1','9','Z','e','w','H','8','K','k','1','P','D','b','S','N','d','J','9','7','F','P','4','E','i','C','j','T','R','a','Z','M','Z','Q','A']),
  (64, ['1','6','j','Y','7','q','L','J','n','x','b','7','C','H','Z','y','q','B','P','8','q','c','a','9','d','5','1','g','A','j','y','X','Q','N']),
  (65, ['1','8','Z','M','b','w','U','F','L','M','H','o','Z','B','b','f','p','C','j','U','J','Q','T','C','M','C','b','k','t','s','h','g','p','e']),
  (66, ['1','3','z','b','1','h','Q','b','W','V','s','c','2','S','7','Z','T','Z','n','P','2','G','4','u','n','d','N','N','p','d','h','5','s','o'])]

/-- Scanner configuration built by `BTCPuzzleScanner.__init__` (p73.py lines
31-49): `start_range = 2^(n-1)`, `end_range = 2^n - 1`, target looked up in
the dictionary with `""` (the empty string) as default. -/
structure P73Cfg where
  start_range : Nat
  end_range : Nat
  target_address : List Char

def p73Scanner (puzzle_number : Nat) : P73Cfg :=
  { start_range := 2 ^ (puzzle_number - 1)
    end_range := 2 ^ puzzle_number - 1
    target_address := ((puzzle_addresses_73.find? (fun q => q.1 == puzzle_number)).map Prod.snd).getD [] }

def p73TotalKeys (cfg : P73Cfg) : Nat := cfg.end_range - cfg.start_range + 1

/-- A found result, modelling the dict `{found, private_key, address, decimal_key}`. -/
structure FoundResult where
  decimal_key : Nat
  address : List Char
deriving DecidableEq

/-- The loop body of `scan_sequential` (p73.py lines 86-103): `count` keys to
go starting at `key`; each successful derivation increments `keys_checked`,
the candidate's address string is compared with the target, and a derivation
exception skips the candidate. Returns the queued result and the new
`keys_checked`. -/
def scanSeqGo (target : List Char) : Nat → Nat → Nat → Option FoundResult × Nat
  | 0, _, checked => (none, checked)
  | count + 1, key, checked =>
      match private_key_to_address key with
      | none => scanSeqGo target count (key + 1) checked
      | some a =>
          if a = target then (some ⟨key, a⟩, checked + 1)
          else scanSeqGo target count (key + 1) (checked + 1)

/-- p73.py `scan_sequential(start, end)`: iterates `range(start, min(end, end_range + 1))`. -/
def scan_sequential (cfg : P73Cfg) (s e checked : Nat) : Option FoundResult × Nat :=
  scanSeqGo cfg.target_address (min e (cfg.end_range + 1) - s) s checked

/-- The address strings materialized by `scan_sequential`'s per-candidate
binding `address = self.private_key_to_address(key)` (p73.py line 88), in
visiting order; the scan stops at a match. -/
def scan_sequential_trace (target : List Char) : Nat → Nat → List (List Char)
  | 0, _ => []
  | count + 1, key =>
      match private_key_to_address key with
      | none => scan_sequential_trace target count (key + 1)
      | some a => if a = target then [a] else a :: scan_sequential_trace target count (key + 1)

/-- Outcome of p73.py's `main` scanning loop: the `while True` loop exits only
when the result queue is non-empty (a key was found); there is no other
terminal state. -/
inductive MainOutcome where
  | found : FoundResult → MainOutcome
  | running : Nat → MainOutcome

/-- The `while True` loop of `main` with method "1" (p73.py lines 233-266):
each iteration runs `scan_sequential(start_range + keys_checked,
start_range + keys_checked + 10000)` and breaks only if the queue holds a
result.  `fuel` bounds the number of iterations we unfold; exhausting fuel
leaves the loop `running`. -/
def p73MainLoop (cfg : P73Cfg) : Nat → Nat → MainOutcome
  | 0, checked => .running checked
  | fuel + 1, checked =>
      match scan_sequential cfg (cfg.start_range + checked) (cfg.start_range + checked + 10000) checked with
      | (some r, _) => .found r
      | (none, checked2) => p73MainLoop cfg fuel checked2

/-- The pre-scan configuration path of p73.py `main` (lines 195-219): reject a
puzzle number outside [1,256]; otherwise build the scanner; if no known
address exists, an optional custom target is accepted, and with none supplied
scanning proceeds with the empty-string target. -/
def p73Configure (puzzle : Nat) (custom : Option (List Char)) : Option P73Cfg :=
  if puzzle < 1 ∨ 256 < puzzle then none
  else
    let cfg := p73Scanner puzzle
    if cfg.target_address = [] then
      some { cfg with target_address := custom.getD [] }
    else some cfg

/-! ## p732.py: OptimizedBTCScanner, batch scanning, workers, partitioning -/

/-- The `puzzle_addresses` dictionary of p732.py (lines 37-51). -/
def puzzle_addresses_732 : List (Nat × List Char) := [
  (64, ['1','6','j','Y','7','q','L','J','n','x','b','7','C','H','Z','y','q','B','P','8','q','c','a','9','d','5','1','g','A','j','y','X','Q','N']),
  (65, ['1','8','Z','M','b','w','U','F','L','M','H','o','Z','B','b','f','p','C','j','U','J','Q','T','C','M','C','b','k','t','s','h','g','p','e']),
  (66, ['1','3','z','b','1','h','Q','b','W','V','s','c','2','S','7','Z','T','Z','n','P','2','G','4','u','n','d','N','N','p','d','h','5','s','o']),
  (67, ['1','M','Y','8','P','E','U','7','j','m','v','c','E','H','j','b','f','N','c','W','p','e','4','E','s','H','5','7','y','F','Q','m','V','Z']),
  (68, ['1','4','B','u','V','K','k','e','E','p','J','F','D','w','Y','U','q','h','z','m','1','D','3','9','h','m','P','y','Q','5','s','K','T','5']),
  (69, ['1','P','W','o','3','J','e','B','9','j','r','G','w','f','H','D','N','p','d','G','K','5','4','C','R','a','s','7','f','s','V','z','X','U']),
  (70, ['1','J','T','K','7','s','9','Y','V','Y','y','w','f','m','5','X','U','H','7','R','N','h','H','J','H','1','L','s','h','C','a','R','F','R']),
  (71, ['1','2','J','z','Y','k','k','N','7','6','x','k','w','v','c','P','T','6','A','W','K','Z','t','G','X','6','w','2','L','A','g','s','J','g']),
  (72, ['1','E','Q','J','v','p','s','m','h','a','z','Y','C','c','K','X','5','A','u','6','A','Z','m','Z','K','R','n','z','F','P','M','b','Y','r']),
  (73, ['1','2','V','V','R','N','P','i','4','S','J','q','U','T','s','p','6','F','m','q','D','q','Y','5','s','G','o','s','D','t','y','s','n','4']),
  (74, ['1','C','R','j','K','Z','J','u','8','L','v','T','u','t','n','S','K','q','4','z','T','J','4','y','i','q','r','z','M','A','A','r','Q','W']),
  (75, ['1','P','J','Z','P','z','v','G','X','1','9','a','7','t','w','f','5','H','y','D','2','V','v','N','b','P','T','E','e','G','P','t','g','D'])]

/-- Scanner state built by `OptimizedBTCScanner.__init__` (p732.py lines
31-61): range bounds, target address (empty when unknown) and the
pre-computed `target_hash160` (`None` when there is no target; otherwise
`b58decode_check(target)[1:]`). -/
structure P732Cfg where
  start_range : Nat
  end_range : Nat
  target_address : List Char
  target_hash160 : Option (List Nat)

def p732TargetHash (a : List Char) : Option (List Nat) :=
  if a = [] then none else (b58decode_check a).map (List.drop 1)

def p732Scanner (puzzle_number : Nat) : P732Cfg :=
  let a := ((puzzle_addresses_732.find? (fun q => q.1 == puzzle_number)).map Prod.snd).getD []
  { start_range := 2 ^ (puzzle_number - 1)
    end_range := 2 ^ puzzle_number - 1
    target_address := a
    target_hash160 := p732TargetHash a }

/-- A found result of p732.py `batch_scan`:
`{found, private_key_hex, private_key_dec, address}`. -/
structure Found732 where
  private_key_dec : Nat
  address : List Char
deriving DecidableEq

/-- The loop body of `batch_scan` (p732.py lines 94-116): at most `count` keys
starting at `key`; the loop breaks past `end_range`; a derivation exception
skips the candidate; the raw hash160 is compared against `target_hash160`, and
only on a match is the address string built. -/
def batchScanGo (cfg : P732Cfg) : Nat → Nat → Option Found732
  | 0, _ => none
  | count + 1, key =>
      if cfg.end_range < key then none
      else
        match fast_private_to_hash160 key with
        | none => batchScanGo cfg count (key + 1)
        | some h =>
            if cfg.target_hash160 = some h then some ⟨key, hash160ToAddress h⟩
            else batchScanGo cfg count (key + 1)

/-- p732.py `batch_scan(start_key, batch_size)`. -/
def batch_scan (cfg : P732Cfg) (start_key batch_size : Nat) : Option Found732 :=
  batchScanGo cfg batch_size start_key

/-- Does some key of the batch starting at `key` (length `count`, clipped at
`end_range`) derive a hash160 equal to the target? -/
def batchMatches (cfg : P732Cfg) (key : Nat) : Prop :=
  ∃ h, fast_private_to_hash160 key = some h ∧ cfg.target_hash160 = some h

/-- The RangePartitioner of p732.py: `keys_per_worker = (end_range - start_range) // num_workers`
(`run_parallel_scan`, lines 149-150). -/
def keys_per_worker (s e w : Nat) : Nat := (e - s) / w

/-- Worker `i`'s sub-range lower bound (`worker_process`, line 123). -/
def workerLo (s e w i : Nat) : Nat := s + i * keys_per_worker s e w

/-- Worker `i`'s sub-range upper bound (`worker_process`, line 124). -/
def workerHi (s e w i : Nat) : Nat := min (workerLo s e w i + keys_per_worker s e w) e

/-- Key `k` is assigned to some worker of the partition. -/
def assigned (s e w k : Nat) : Prop := ∃ i, i < w ∧ workerLo s e w i ≤ k ∧ k < workerHi s e w i


/-- The while-loop of `worker_process` (p732.py lines 129-141) with the
hard-coded `batch_size = 10000`: repeatedly `batch_scan`, return immediately
on a found result (without touching the counter), otherwise add
`min(batch_size, worker_end - current_key)` to the shared counter and
advance by `batch_size`.  Returns (total counter increment, result). -/
def workerLoop (cfg : P732Cfg) (worker_end : Nat) : Nat → Nat → Nat × Option Found732
  | 0, _ => (0, none)
  | fuel + 1, current_key =>
      if current_key < worker_end then
        match batch_scan cfg current_key 10000 with
        | some r => (0, some r)
        | none =>
            let inc := min 10000 (worker_end - current_key)
            let next := workerLoop cfg worker_end fuel (current_key + 10000)
            (inc + next.1, next.2)
      else (0, none)

/-- p732.py `worker_process(worker_id, total_workers, keys_per_worker)`. -/
def worker_process (cfg : P732Cfg) (worker_id kpw fuel : Nat) : Nat × Option Found732 :=
  let worker_start := cfg.start_range + worker_id * kpw
  let worker_end := min (worker_start + kpw) cfg.end_range
  workerLoop cfg worker_end fuel worker_start

/-! ## range.py: the hard-coded puzzle #73 configuration -/

def RANGE_START_HEX : Nat := 0x1000000000000000000

def RANGE_END_HEX : Nat := 0x100000fffffffffffff

/-! # Helper lemmas -/

/-! ## Digits of a natural number -/

theorem digitsBEAux_eq_of_le (base : Nat) (hb : 2 ≤ base) :
    ∀ n f g, n ≤ f → n ≤ g → digitsBEAux base f n = digitsBEAux base g n := by
  intro n
  induction n using Nat.strong_induction_on with
  | _ n ih =>
    intro f g hf hg
    by_cases h0 : n = 0
    · subst h0
      cases f <;> cases g <;> simp [digitsBEAux]
    · obtain ⟨f', rfl⟩ : ∃ f', f = f' + 1 := ⟨f - 1, by omega⟩
      obtain ⟨g', rfl⟩ : ∃ g', g = g' + 1 := ⟨g - 1, by omega⟩
      have hdiv : n / base < n := Nat.div_lt_self (by omega) (by omega)
      simp only [digitsBEAux, h0, if_false]
      rw [ih (n / base) hdiv f' g' (by omega) (by omega)]

theorem digitsBE_eq (base n : Nat) (hb : 2 ≤ base) (hn : n ≠ 0) :
    digitsBE base n = digitsBE base (n / base) ++ [n % base] := by
  obtain ⟨m, rfl⟩ : ∃ m, n = m + 1 := ⟨n - 1, by omega⟩
  have hdiv : (m + 1) / base < m + 1 := Nat.div_lt_self (by omega) (by omega)
  unfold digitsBE
  simp only [digitsBEAux, hn, if_false]
  rw [digitsBEAux_eq_of_le base hb ((m + 1) / base) m ((m + 1) / base) (by omega) le_rfl]

theorem valBE_append_singleton (base : Nat) (l : List Nat) (d : Nat) :
    valBE base (l ++ [d]) = valBE base l * base + d := by
  simp [valBE, List.foldl_append]

theorem valBE_digitsBE (base : Nat) (hb : 2 ≤ base) : ∀ n, valBE base (digitsBE base n) = n := by
  intro n
  induction n using Nat.strong_induction_on with
  | _ n ih =>
    by_cases h0 : n = 0
    · subst h0; rfl
    · rw [digitsBE_eq base n hb h0, valBE_append_singleton,
        ih (n / base) (Nat.div_lt_self (by omega) (by omega)), Nat.mul_comm]
      exact Nat.div_add_mod n base

theorem digitsBE_mem_lt (base : Nat) (hb : 2 ≤ base) :
    ∀ n d, d ∈ digitsBE base n → d < base := by
  intro n
  induction n using Nat.strong_induction_on with
  | _ n ih =>
    intro d hd
    by_cases h0 : n = 0
    · subst h0; simp [digitsBE, digitsBEAux] at hd
    · rw [digitsBE_eq base n hb h0] at hd
      rcases List.mem_append.mp hd with h | h
      · exact ih (n / base) (Nat.div_lt_self (by omega) (by omega)) d h
      · simp only [List.mem_singleton] at h
        subst h
        exact Nat.mod_lt n (by omega)

theorem digitsBE_head_pos (base : Nat) (hb : 2 ≤ base) :
    ∀ n, n ≠ 0 → ∃ d t, digitsBE base n = d :: t ∧ 0 < d := by
  intro n
  induction n using Nat.strong_induction_on with
  | _ n ih =>
    intro hn
    rw [digitsBE_eq base n hb hn]
    by_cases h : n / base = 0
    · have hlt : n < base := (Nat.div_eq_zero_iff (by omega)).mp h
      rw [h]
      exact ⟨n % base, [], by simp [digitsBE, digitsBEAux], by
        rw [Nat.mod_eq_of_lt hlt]; omega⟩
    · obtain ⟨d, t, hdt, hd⟩ :=
        ih (n / base) (Nat.div_lt_self (by omega) (by omega)) h
      exact ⟨d, t ++ [n % base], by rw [hdt]; simp, hd⟩

theorem foldl_valBE_acc (base : Nat) :
    ∀ (l : List Nat) (a : Nat),
      l.foldl (fun x d => x * base + d) a = a * base ^ l.length + valBE base l := by
  intro l
  induction l with
  | nil => intro a; simp [valBE]
  | cons d t ih =>
    intro a
    have hv : valBE base (d :: t) = d * base ^ t.length + valBE base t := by
      have := ih d
      simpa [valBE] using this
    simp only [List.foldl_cons, List.length_cons, valBE] at *
    rw [ih (a * base + d), hv]
    ring

theorem valBE_cons (base d : Nat) (t : List Nat) :
    valBE base (d :: t) = d * base ^ t.length + valBE base t := by
  have := foldl_valBE_acc base t d
  simpa [valBE] using this

theorem valBE_pos (base : Nat) (hb : 1 ≤ base) (d : Nat) (t : List Nat) (hd : 0 < d) :
    0 < valBE base (d :: t) := by
  rw [valBE_cons]
  have : 0 < base ^ t.length := Nat.pos_pow_of_pos _ (by omega)
  have : 0 < d * base ^ t.length := Nat.mul_pos hd this
  omega

theorem digitsBE_valBE (base : Nat) (hb : 2 ≤ base) :
    ∀ (l : List Nat), (∀ d ∈ l, d < base) →
      (l = [] ∨ ∃ d t, l = d :: t ∧ 0 < d) →
      digitsBE base (valBE base l) = l := by
  intro l
  induction l using List.reverseRecOn with
  | nil => intro _ _; rfl
  | append_singleton l d ih =>
    intro hbound hhead
    have hd : d < base := hbound d (by simp)
    cases l with
    | nil =>
      have hdpos : 0 < d := by
        rcases hhead with h | ⟨d', t', heq, hd'⟩
        · simp at h
        · simp at heq; omega
      have hne : d ≠ 0 := by omega
      have hval : valBE base ([] ++ [d]) = d := by simp [valBE]
      rw [hval, digitsBE_eq base d hb hne, Nat.div_eq_of_lt hd, Nat.mod_eq_of_lt hd]
      simp [digitsBE, digitsBEAux]
    | cons h0 t0 =>
      have hh0 : 0 < h0 := by
        rcases hhead with h | ⟨d', t', heq, hd'⟩
        · simp at h
        · rw [List.cons_append] at heq
          injection heq with h1 _
          omega
      have hvpos : 0 < valBE base (h0 :: t0) := valBE_pos base (by omega) h0 t0 hh0
      rw [valBE_append_singleton]
      have hnz : valBE base (h0 :: t0) * base + d ≠ 0 := by
        have : base ≤ valBE base (h0 :: t0) * base := by
          calc base = 1 * base := (one_mul base).symm
          _ ≤ valBE base (h0 :: t0) * base := Nat.mul_le_mul_right base hvpos
        omega
      rw [digitsBE_eq base _ hb hnz]
      have hdivq : (valBE base (h0 :: t0) * base + d) / base = valBE base (h0 :: t0) := by
        rw [Nat.mul_comm (valBE base (h0 :: t0)) base, Nat.mul_add_div (by omega),
          Nat.div_eq_of_lt hd, Nat.add_zero]
      have hmodq : (valBE base (h0 :: t0) * base + d) % base = d := by
        rw [Nat.mul_comm (valBE base (h0 :: t0)) base, Nat.mul_add_mod,
          Nat.mod_eq_of_lt hd]
      rw [hdivq, hmodq,
        ih (fun x hx => by
          rcases List.mem_cons.mp hx with h | h
          · exact hbound x (by simp [h])
          · exact hbound x (by simp [h])) (Or.inr ⟨h0, t0, rfl, hh0⟩)]

/-! ## Leading zeros and stripping -/

theorem replicate_leadingZeros_append :
    ∀ v : List Nat, List.replicate (leadingZeros v) 0 ++ stripZeros v = v := by
  intro v
  induction v with
  | nil => rfl
  | cons b t ih =>
    by_cases hb : b = 0
    · subst hb
      simp [leadingZeros, stripZeros, List.replicate_succ, ih]
    · simp [leadingZeros, stripZeros, hb]

theorem valBE_replicate_zero_append (base : Nat) :
    ∀ (z : Nat) (m : List Nat), valBE base (List.replicate z 0 ++ m) = valBE base m := by
  intro z
  induction z with
  | zero => intro m; rfl
  | succ z ih =>
    intro m
    rw [List.replicate_succ, List.cons_append, valBE_cons]
    simp [ih m]

theorem stripZeros_shape :
    ∀ v : List Nat, stripZeros v = [] ∨ ∃ d t, stripZeros v = d :: t ∧ 0 < d := by
  intro v
  induction v with
  | nil => exact Or.inl rfl
  | cons b t ih =>
    by_cases hb : b = 0
    · subst hb; simpa [stripZeros] using ih
    · exact Or.inr ⟨b, t, by simp [stripZeros, hb], by omega⟩

theorem stripZeros_mem_lt (c : Nat) :
    ∀ v : List Nat, (∀ b ∈ v, b < c) → ∀ d ∈ stripZeros v, d < c := by
  intro v
  induction v with
  | nil => intro _ d hd; simp [stripZeros] at hd
  | cons b t ih =>
    intro hv d hd
    by_cases hb : b = 0
    · subst hb
      simp only [stripZeros, if_pos rfl] at hd
      exact ih (fun x hx => hv x (by simp [hx])) d hd
    · simp only [stripZeros, if_neg hb] at hd
      exact hv d hd

theorem valBE_stripZeros (base : Nat) (v : List Nat) :
    valBE base (stripZeros v) = valBE base v := by
  conv_rhs => rw [← replicate_leadingZeros_append v]
  rw [valBE_replicate_zero_append]

theorem stripZeros_nil_of_valBE_zero (base : Nat) (hb : 2 ≤ base) (v : List Nat)
    (hv : valBE base v = 0) : stripZeros v = [] := by
  rcases stripZeros_shape v with h | ⟨d, t, hdt, hd⟩
  · exact h
  · exfalso
    have := valBE_pos base (by omega) d t hd
    rw [← hdt, valBE_stripZeros, hv] at this
    omega

/-! ## Base58 character facts -/

theorem b58charIndex_alphabet :
    ∀ d, d < 58 → b58charIndex (b58alphabet.getD d ' ') = some d := by decide

theorem b58alphabet_ne_one :
    ∀ d, d < 58 → 0 < d → b58alphabet.getD d ' ' ≠ '1' := by decide

theorem charsToDigits_map :
    ∀ ds : List Nat, (∀ d ∈ ds, d < 58) →
      charsToDigits (ds.map (fun d => b58alphabet.getD d ' ')) = some ds := by
  intro ds
  induction ds with
  | nil => intro _; rfl
  | cons d t ih =>
    intro hds
    have hd : d < 58 := hds d (by simp)
    simp only [List.map_cons, charsToDigits,
      b58charIndex_alphabet d hd, ih (fun x hx => hds x (by simp [hx]))]

theorem leadingOnes_replicate_append :
    ∀ (z : Nat) (l : List Char), leadingOnes (List.replicate z '1' ++ l) = z + leadingOnes l := by
  intro z
  induction z with
  | zero => intro l; simp
  | succ z ih =>
    intro l
    rw [List.replicate_succ, List.cons_append]
    have hstep : leadingOnes ('1' :: (List.replicate z '1' ++ l)) =
        leadingOnes (List.replicate z '1' ++ l) + 1 := by
      simp [leadingOnes]
    rw [hstep, ih l]
    omega

theorem leadingOnes_cons_ne (c : Char) (t : List Char) (hc : c ≠ '1') :
    leadingOnes (c :: t) = 0 := by
  simp [leadingOnes, hc]

/-! ## The Base58 / Base58Check round trip -/

theorem b58decode_b58encode (v : List Nat) (hv : ∀ b ∈ v, b < 256) :
    b58decode (b58encode v) = some v := by
  by_cases hn : valBE 256 v = 0
  · have hstrip : stripZeros v = [] := stripZeros_nil_of_valBE_zero 256 (by omega) v hn
    have hv' : v = List.replicate (leadingZeros v) 0 := by
      conv_lhs => rw [← replicate_leadingZeros_append v]
      rw [hstrip, List.append_nil]
    unfold b58encode
    rw [hn]
    have hdig : digitsBE 58 0 = [] := rfl
    rw [hdig]
    simp only [List.map_nil, List.append_nil]
    unfold b58decode
    have hlead : leadingOnes (List.replicate (leadingZeros v) '1') = leadingZeros v := by
      have h2 := leadingOnes_replicate_append (leadingZeros v) []
      rw [List.append_nil] at h2
      have h3 : leadingOnes ([] : List Char) = 0 := rfl
      omega
    rw [hlead, List.drop_replicate]
    simp only [Nat.sub_self, List.replicate_zero, charsToDigits]
    have : valBE 58 [] = 0 := rfl
    rw [this]
    have : digitsBE 256 0 = [] := rfl
    rw [this, List.append_nil, ← hv']
  · obtain ⟨d, t, hdt, hd⟩ := digitsBE_head_pos 58 (by omega) (valBE 256 v) hn
    have hbound : ∀ x ∈ digitsBE 58 (valBE 256 v), x < 58 :=
      fun x hx => digitsBE_mem_lt 58 (by omega) (valBE 256 v) x hx
    have hdlt : d < 58 := by
      apply hbound
      rw [hdt]; simp
    unfold b58encode
    rw [hdt]
    simp only [List.map_cons]
    unfold b58decode
    have hne1 : b58alphabet.getD d ' ' ≠ '1' := b58alphabet_ne_one d hdlt hd
    have hlead : leadingOnes (List.replicate (leadingZeros v) '1' ++
        (b58alphabet.getD d ' ' :: t.map (fun x => b58alphabet.getD x ' '))) = leadingZeros v := by
      rw [leadingOnes_replicate_append, leadingOnes_cons_ne _ _ hne1]
      omega
    rw [hlead]
    have hdrop : (List.replicate (leadingZeros v) '1' ++
        (b58alphabet.getD d ' ' :: t.map (fun x => b58alphabet.getD x ' '))).drop (leadingZeros v) =
        b58alphabet.getD d ' ' :: t.map (fun x => b58alphabet.getD x ' ') := by
      have hdl := List.drop_left (List.replicate (leadingZeros v) '1')
        (b58alphabet.getD d ' ' :: t.map (fun x => b58alphabet.getD x ' '))
      rwa [List.length_replicate] at hdl
    rw [hdrop]
    have hmap : b58alphabet.getD d ' ' :: t.map (fun x => b58alphabet.getD x ' ') =
        (d :: t).map (fun x => b58alphabet.getD x ' ') := by simp
    rw [hmap, charsToDigits_map (d :: t) (fun x hx => hbound x (hdt ▸ hx))]
    have hval : valBE 58 (d :: t) = valBE 256 v := by
      rw [← hdt, valBE_digitsBE 58 (by omega)]
    have hstrip : digitsBE 256 (valBE 256 v) = stripZeros v := by
      rw [← valBE_stripZeros 256 v]
      exact digitsBE_valBE 256 (by omega) (stripZeros v)
        (stripZeros_mem_lt 256 v hv) (stripZeros_shape v)
    dsimp only
    rw [hval, hstrip, replicate_leadingZeros_append]

/-! ## SHA-256 and RIPEMD-160 output shape -/

theorem w32ToBytesBE_mem_lt (w : Nat) : ∀ b ∈ w32ToBytesBE w, b < 256 := by
  intro b hb
  simp only [w32ToBytesBE, List.mem_cons, List.mem_singleton, List.not_mem_nil, or_false] at hb
  rcases hb with rfl | rfl | rfl | rfl <;> exact Nat.mod_lt _ (by norm_num)

theorem sha256_mem_lt (m : List Nat) : ∀ b ∈ sha256 m, b < 256 := by
  intro b hb
  unfold sha256 at hb
  simp only [List.mem_append] at hb
  rcases hb with ((((((h | h) | h) | h) | h) | h) | h) | h <;>
    exact w32ToBytesBE_mem_lt _ b h

theorem sha256_length (m : List Nat) : (sha256 m).length = 32 := by
  unfold sha256
  simp [w32ToBytesBE]

theorem bytesLE_mem_lt (w x : Nat) : ∀ b ∈ bytesLE w x, b < 256 := by
  induction w generalizing x with
  | zero => intro b hb; simp [bytesLE] at hb
  | succ w ih =>
    intro b hb
    simp only [bytesLE, List.mem_cons] at hb
    rcases hb with rfl | hb
    · exact Nat.mod_lt _ (by norm_num)
    · exact ih (x / 256) b hb

theorem ripemd160_mem_lt (m : List Nat) : ∀ b ∈ ripemd160 m, b < 256 := by
  intro b hb
  unfold ripemd160 at hb
  simp only [List.mem_append] at hb
  rcases hb with (((h | h) | h) | h) | h <;> exact bytesLE_mem_lt 4 _ b h

theorem ripemd160_length (m : List Nat) : (ripemd160 m).length = 20 := by
  unfold ripemd160
  simp [bytesLE]

/-! ## Base58Check address facts -/

/-- Base58Check decoding inverts encoding of a payload carrying its own
4-byte double-SHA-256 checksum. -/
theorem b58decode_check_append (p chk : List Nat) (hlen : chk.length = 4)
    (hchk : (sha256 (sha256 p)).take 4 = chk) (hb : ∀ b ∈ p ++ chk, b < 256) :
    b58decode_check (b58encode (p ++ chk)) = some p := by
  unfold b58decode_check
  rw [b58decode_b58encode _ hb]
  dsimp only
  have h1 : (p ++ chk).length - 4 = p.length := by
    rw [List.length_append, hlen]
    omega
  rw [h1, List.take_left, List.drop_left, hchk, if_pos rfl]

/-- Decoding the Base58Check address built from any hash160-style byte list
recovers the versioned payload and passes the checksum. -/
theorem b58decode_check_hash160ToAddress (h : List Nat) (hb : ∀ b ∈ h, b < 256) :
    b58decode_check (hash160ToAddress h) = some (0 :: h) := by
  have hrepr : hash160ToAddress h =
      b58encode ((0 :: h) ++ (sha256 (sha256 (0 :: h))).take 4) := rfl
  rw [hrepr]
  refine b58decode_check_append (0 :: h) _ ?_ rfl ?_
  · rw [List.length_take, sha256_length]
    omega
  · intro b hbm
    rcases List.mem_append.mp hbm with hm | hm
    · rcases List.mem_cons.mp hm with rfl | hm
      · norm_num
      · exact hb b hm
    · exact sha256_mem_lt _ b (List.mem_of_mem_take hm)

/-- Every address built by the pipeline starts with the character '1'
(the version byte 0x00 maps to a leading '1' in Base58Check). -/
theorem hash160ToAddress_head (h : List Nat) :
    ∃ t, hash160ToAddress h = '1' :: t := by
  unfold hash160ToAddress b58encode
  refine ⟨List.replicate (leadingZeros (h ++ (sha256 (sha256 (0 :: h))).take 4)) '1' ++
    (digitsBE 58 (valBE 256 (0 :: (h ++ (sha256 (sha256 (0 :: h))).take 4)))).map
      (fun d => b58alphabet.getD d ' '), ?_⟩
  have hlz : leadingZeros (0 :: (h ++ (sha256 (sha256 (0 :: h))).take 4)) =
      leadingZeros (h ++ (sha256 (sha256 (0 :: h))).take 4) + 1 := by
    simp [leadingZeros]
  simp only [List.cons_append, hlz, List.replicate_succ, List.cons_append]

/-! ## p73.py sequential-scan lemmas -/

theorem private_key_to_address_valid (k : Nat) (h1 : 1 ≤ k) (h2 : k < secpN) :
    private_key_to_address k =
      some (hash160ToAddress (ripemd160 (sha256 (pubkeyBytes k)))) := by
  simp [private_key_to_address, h1, h2]

theorem addr_ne_of_headD (a t : List Char) (ha : ∃ r, a = '1' :: r)
    (ht : t.headD ' ' ≠ '1') : a ≠ t := by
  rcases ha with ⟨r, rfl⟩
  intro he
  rw [← he] at ht
  simp at ht

/-- A sequential batch whose target string does not start with '1' matches no
candidate; all its valid keys are counted. -/
theorem scanSeqGo_no_match (t : List Char) (ht : t.headD ' ' ≠ '1') :
    ∀ count key checked, 1 ≤ key → key + count ≤ secpN →
      scanSeqGo t count key checked = (none, checked + count) := by
  intro count
  induction count with
  | zero => intro key checked _ _; simp [scanSeqGo]
  | succ c ih =>
    intro key checked h1 h2
    have hvalid := private_key_to_address_valid key h1 (by omega)
    have hne : hash160ToAddress (ripemd160 (sha256 (pubkeyBytes key))) ≠ t :=
      addr_ne_of_headD _ t (hash160ToAddress_head _) ht
    simp only [scanSeqGo, hvalid, if_neg hne]
    rw [ih (key + 1) (checked + 1) (by omega) (by omega)]
    have harith : checked + 1 + c = checked + (c + 1) := by omega
    rw [harith]

/-- Once `keys_checked` has reached the whole interval, every further main-loop
iteration scans an empty range and loops forever in the `running` state. -/
theorem p73MainLoop_stationary (cfg : P73Cfg) (checked : Nat)
    (hstat : cfg.start_range + checked = cfg.end_range + 1) :
    ∀ fuel, p73MainLoop cfg fuel checked = .running checked := by
  intro fuel
  induction fuel with
  | zero => rfl
  | succ f ih =>
    have hempty : scan_sequential cfg (cfg.start_range + checked)
        (cfg.start_range + checked + 10000) checked = (none, checked) := by
      unfold scan_sequential
      have hcount : min (cfg.start_range + checked + 10000) (cfg.end_range + 1) -
          (cfg.start_range + checked) = 0 := by omega
      rw [hcount]
      rfl
    simp only [p73MainLoop, hempty]
    exact ih

/-- One main-loop iteration whose scan finds nothing recurses with the
updated checked-count. -/
theorem p73MainLoop_step_none (cfg : P73Cfg) (fuel checked c2 : Nat)
    (hscan : scan_sequential cfg (cfg.start_range + checked)
      (cfg.start_range + checked + 10000) checked = (none, c2)) :
    p73MainLoop cfg (fuel + 1) checked = p73MainLoop cfg fuel c2 := by
  simp only [p73MainLoop, hscan]

/-! ## RangePartitioner lemmas (p732.py worker sub-ranges) -/

theorem workerLo_le_of_mem (s e w i k : Nat)
    (hhi : k < workerHi s e w i) : k < workerLo s e w i + keys_per_worker s e w :=
  lt_of_lt_of_le hhi (Nat.min_le_left _ _)

theorem worker_disjoint (s e w : Nat) :
    ∀ i j k, i < w → j < w →
      workerLo s e w i ≤ k → k < workerHi s e w i →
      workerLo s e w j ≤ k → k < workerHi s e w j → i = j := by
  have key : ∀ i j k, workerLo s e w i ≤ k → k < workerHi s e w j → i ≤ j := by
    intro i j k hli hhj
    have h1 : k < workerLo s e w j + keys_per_worker s e w := workerLo_le_of_mem s e w j k hhj
    unfold workerLo at h1 hli
    have h2 : i * keys_per_worker s e w < (j + 1) * keys_per_worker s e w := by
      rw [Nat.succ_mul]
      omega
    have h3 : i < j + 1 := lt_of_mul_lt_mul_right h2 (Nat.zero_le _)
    omega
  intro i j k _ _ hli hhi hlj hhj
  have h1 : i ≤ j := key i j k hli hhj
  have h2 : j ≤ i := key j i k hlj hhi
  omega

theorem assigned_iff (s e w : Nat) (_hw : 1 ≤ w) :
    ∀ k, assigned s e w k ↔ s ≤ k ∧ k < s + w * keys_per_worker s e w := by
  intro k
  constructor
  · rintro ⟨i, hi, hlo, hhi⟩
    have h1 : k < workerLo s e w i + keys_per_worker s e w := workerLo_le_of_mem s e w i k hhi
    unfold workerLo at hlo h1
    have h2 : (i + 1) * keys_per_worker s e w ≤ w * keys_per_worker s e w :=
      Nat.mul_le_mul_right _ (by omega)
    rw [Nat.succ_mul] at h2
    exact ⟨by omega, by omega⟩
  · rintro ⟨hsk, hk⟩
    by_cases hp0 : keys_per_worker s e w = 0
    · rw [hp0, Nat.mul_zero] at hk
      exfalso
      omega
    · have hp : 0 < keys_per_worker s e w := Nat.pos_of_ne_zero hp0
      refine ⟨(k - s) / keys_per_worker s e w, ?_, ?_, ?_⟩
      · apply Nat.div_lt_of_lt_mul
        have hcomm : keys_per_worker s e w * w = w * keys_per_worker s e w := Nat.mul_comm _ _
        omega
      · unfold workerLo
        have := Nat.div_mul_le_self (k - s) (keys_per_worker s e w)
        omega
      · unfold workerHi workerLo
        have hdm : (k - s) / keys_per_worker s e w * keys_per_worker s e w +
            (k - s) % keys_per_worker s e w = k - s := by
          rw [Nat.mul_comm]
          exact Nat.div_add_mod _ _
        have hmlt : (k - s) % keys_per_worker s e w < keys_per_worker s e w :=
          Nat.mod_lt _ hp
        have hwp : w * keys_per_worker s e w ≤ e - s := by
          unfold keys_per_worker
          rw [Nat.mul_comm]
          exact Nat.div_mul_le_self _ _
        have hle : keys_per_worker s e w ≤ e - s := Nat.div_le_self _ _
        refine Nat.lt_min.mpr ⟨by omega, by omega⟩

theorem assigned_union_iff (s e w : Nat) (hw : 1 ≤ w) :
    (∀ k, assigned s e w k ↔ s ≤ k ∧ k < e) ↔ w ∣ (e - s) := by
  constructor
  · intro hall
    by_cases hse : s < e
    · have h1 : assigned s e w (e - 1) := (hall (e - 1)).mpr ⟨by omega, by omega⟩
      have h2 := (assigned_iff s e w hw (e - 1)).mp h1
      have hwp : w * keys_per_worker s e w ≤ e - s := by
        unfold keys_per_worker
        rw [Nat.mul_comm]
        exact Nat.div_mul_le_self _ _
      have heq : e - s = w * keys_per_worker s e w := by omega
      exact ⟨keys_per_worker s e w, heq⟩
    · have h0 : e - s = 0 := by omega
      rw [h0]
      exact dvd_zero w
  · intro hdvd k
    have hwp : w * keys_per_worker s e w = e - s := Nat.mul_div_cancel' hdvd
    rw [assigned_iff s e w hw k, hwp]
    constructor <;> rintro ⟨ha, hb⟩ <;> exact ⟨ha, by omega⟩

/-! ## p732.py batch-scan lemmas -/

theorem fast_private_to_hash160_valid (k : Nat) (h1 : 1 ≤ k) (h2 : k < secpN) :
    fast_private_to_hash160 k = some (ripemd160 (sha256 (pubkeyBytes k))) := by
  simp [fast_private_to_hash160, h1, h2]

/-- If every candidate before position `j` fails to match (by derivation
failure or hash160 mismatch) and the candidate at `j` matches, the batch scan
returns exactly that candidate: earlier derivation failures are skipped and
never abort the batch. -/
theorem batchScanGo_finds (cfg : P732Cfg) :
    ∀ n s j h, j < n → s + j ≤ cfg.end_range →
      (∀ i, i < j → ¬ batchMatches cfg (s + i)) →
      fast_private_to_hash160 (s + j) = some h → cfg.target_hash160 = some h →
      batchScanGo cfg n s = some ⟨s + j, hash160ToAddress h⟩ := by
  intro n
  induction n with
  | zero => intro s j h hj; omega
  | succ m ih =>
    intro s j h hj hle hprev hderiv htgt
    have hbr : ¬ cfg.end_range < s := by omega
    cases j with
    | zero =>
      rw [Nat.add_zero] at hderiv hle
      have hresult : batchScanGo cfg (m + 1) s = some ⟨s, hash160ToAddress h⟩ := by
        simp [batchScanGo, hbr, hderiv, htgt]
      rw [hresult, Nat.add_zero]
    | succ j' =>
      have hnm := hprev 0 (by omega)
      rw [Nat.add_zero] at hnm
      have step : batchScanGo cfg (m + 1) s = batchScanGo cfg m (s + 1) := by
        cases hd : fast_private_to_hash160 s with
        | none => simp only [batchScanGo, hbr, if_false, hd]
        | some hv =>
          have hne : ¬ cfg.target_hash160 = some hv := fun hcon => hnm ⟨hv, hd, hcon⟩
          simp only [batchScanGo, hbr, if_false, hd, hne]
      rw [step]
      have hres := ih (s + 1) j' h (by omega) (by omega)
        (fun i hi => by
          have := hprev (i + 1) (by omega)
          rwa [show s + (i + 1) = s + 1 + i by omega] at this)
        (by rwa [show s + (j' + 1) = s + 1 + j' by omega] at hderiv) htgt
      rwa [show s + 1 + j' = s + (j' + 1) by omega] at hres

/-- A batch none of whose candidates matches completes and returns `none`:
per-candidate failures never escape. -/
theorem batchScanGo_none (cfg : P732Cfg) :
    ∀ n s, (∀ i, i < n → ¬ batchMatches cfg (s + i)) → batchScanGo cfg n s = none := by
  intro n
  induction n with
  | zero => intro s _; rfl
  | succ m ih =>
    intro s hnm
    by_cases hbr : cfg.end_range < s
    · simp only [batchScanGo, hbr, if_true]
    · have hnm0 := hnm 0 (by omega)
      rw [Nat.add_zero] at hnm0
      have hrec := ih (s + 1) (fun i hi => by
        have := hnm (i + 1) (by omega)
        rwa [show s + (i + 1) = s + 1 + i by omega] at this)
      cases hd : fast_private_to_hash160 s with
      | none => simp only [batchScanGo, hbr, if_false, hd, hrec]
      | some hv =>
        have hne : ¬ cfg.target_hash160 = some hv := fun hcon => hnm0 ⟨hv, hd, hcon⟩
        simp only [batchScanGo, hbr, if_false, hd, hne, hrec, if_false]

/-! # Claim theorems -/

/-- C10: in the optimized parallel scanner the shared checked-counter is
incremented only at batch boundaries and only for batches that completed
without a match.  Whenever `worker_process`'s loop returns a Found result,
the counter increment it produced counts exactly the `j` earlier no-match
batches (10000 each) and includes nothing from the batch in which the match
was found. -/
theorem C10_theorem (cfg : P732Cfg) (we : Nat) :
    ∀ fuel cur add r, workerLoop cfg we fuel cur = (add, some r) →
      ∃ j, add = j * 10000 ∧
        batch_scan cfg (cur + j * 10000) 10000 = some r ∧
        (∀ i, i < j → batch_scan cfg (cur + i * 10000) 10000 = none) ∧
        cur + j * 10000 < we := by
  intro fuel
  induction fuel with
  | zero =>
    intro cur add r h
    simp only [workerLoop] at h
    exact absurd (congrArg Prod.snd h) (by simp)
  | succ f ih =>
    intro cur add r h
    by_cases hcw : cur < we
    · cases hb : batch_scan cfg cur 10000 with
      | some r' =>
        rw [workerLoop, if_pos hcw, hb] at h
        have hadd : add = 0 := (congrArg Prod.fst h).symm
        have hr : r' = r := by
          have := congrArg Prod.snd h
          simpa using this
        refine ⟨0, by omega, ?_, by omega, ?_⟩
        · rw [Nat.zero_mul, Nat.add_zero, hb, hr]
        · rw [Nat.zero_mul, Nat.add_zero]
          exact hcw
      | none =>
        rw [workerLoop, if_pos hcw, hb] at h
        have h2 : (workerLoop cfg we f (cur + 10000)).2 = some r := by
          have := congrArg Prod.snd h
          simpa using this
        have h1 : add = min 10000 (we - cur) + (workerLoop cfg we f (cur + 10000)).1 := by
          have := congrArg Prod.fst h
          simp at this
          omega
        obtain ⟨j', hj1, hj2, hj3, hj4⟩ :=
          ih (cur + 10000) (workerLoop cfg we f (cur + 10000)).1 r
            (Prod.ext rfl h2)
        have hmin : min 10000 (we - cur) = 10000 := by omega
        refine ⟨j' + 1, by omega, ?_, ?_, ?_⟩
        · rw [show cur + (j' + 1) * 10000 = cur + 10000 + j' * 10000 by ring]
          exact hj2
        · intro i hi
          cases i with
          | zero =>
            rw [Nat.zero_mul, Nat.add_zero]
            exact hb
          | succ i' =>
            rw [show cur + (i' + 1) * 10000 = cur + 10000 + i' * 10000 by ring]
            exact hj3 i' (by omega)
        · rw [show cur + (j' + 1) * 10000 = cur + 10000 + j' * 10000 by ring]
          exact hj4
    · rw [workerLoop, if_neg hcw] at h
      exact absurd (congrArg Prod.snd h) (by simp)

/-- C10 witness: a worker whose first batch finds the key (sub-range [1,5),
target hash160 of key 1) contributes a zero counter increment. -/
theorem C10_witness :
    ∃ j, (0 : Nat) = j * 10000 ∧
      batch_scan ⟨1, 100, [], some (ripemd160 (sha256 (pubkeyBytes 1)))⟩ (1 + j * 10000) 10000 =
        some ⟨1 + 0, hash160ToAddress (ripemd160 (sha256 (pubkeyBytes 1)))⟩ ∧
      (∀ i, i < j →
        batch_scan ⟨1, 100, [], some (ripemd160 (sha256 (pubkeyBytes 1)))⟩ (1 + i * 10000) 10000 =
          none) ∧
      1 + j * 10000 < 5 := by
  have hb : batch_scan ⟨1, 100, [], some (ripemd160 (sha256 (pubkeyBytes 1)))⟩ 1 10000 =
      some ⟨1 + 0, hash160ToAddress (ripemd160 (sha256 (pubkeyBytes 1)))⟩ :=
    batchScanGo_finds ⟨1, 100, [], some (ripemd160 (sha256 (pubkeyBytes 1)))⟩ 10000 1 0
      (ripemd160 (sha256 (pubkeyBytes 1))) (by omega) (by decide)
      (fun i hi => absurd hi (by omega))
      (fast_private_to_hash160_valid (1 + 0) (by omega) (by decide)) rfl
  have hw : workerLoop ⟨1, 100, [], some (ripemd160 (sha256 (pubkeyBytes 1)))⟩ 5 (2 + 1) 1 =
      (0, some ⟨1 + 0, hash160ToAddress (ripemd160 (sha256 (pubkeyBytes 1)))⟩) := by
    rw [workerLoop, if_pos (show (1 : Nat) < 5 by omega), hb]
  exact C10_theorem ⟨1, 100, [], some (ripemd160 (sha256 (pubkeyBytes 1)))⟩ 5 (2 + 1) 1 0
    ⟨1 + 0, hash160ToAddress (ripemd160 (sha256 (pubkeyBytes 1)))⟩ hw

/-- C1 counterexample: with `start = 8`, `end = 15` (the puzzle-4 bounds used
by the code) and 2 workers, `keys_per_worker = (15 - 8) / 2 = 3`, the workers
receive [8,11) and [11,14), and key 14 of the half-open interval [8,15) is
assigned to no worker: the last worker does not absorb the remainder. -/
theorem C1_counterexample :
    8 ≤ 14 ∧ 14 < 15 ∧ ¬ assigned 8 15 2 14 := by
  refine ⟨by omega, by omega, ?_⟩
  rintro ⟨i, hi, hlo, hhi⟩
  unfold workerHi at hhi
  rw [Nat.lt_min] at hhi
  unfold workerLo at hlo hhi
  have h1 : keys_per_worker 8 15 2 = 3 := rfl
  rw [h1] at hlo hhi
  have h2 : i = 0 ∨ i = 1 := by omega
  rcases h2 with rfl | rfl <;> omega

/-- C1 amended: for every `(start, end, workerCount)` with `workerCount ≥ 1`,
the sub-ranges `[start + i*perWorker, min(start + (i+1)*perWorker, end))` are
pairwise disjoint, but their union is the half-open interval
`[start, start + workerCount*perWorker)`, which equals `[start, end)` exactly
when `workerCount` divides `end - start`; otherwise the top
`(end - start) mod workerCount` keys are left unassigned. -/
theorem C1_amended (s e w : Nat) (hw : 1 ≤ w) :
    (∀ i j k, i < w → j < w →
      workerLo s e w i ≤ k → k < workerHi s e w i →
      workerLo s e w j ≤ k → k < workerHi s e w j → i = j) ∧
    (∀ k, assigned s e w k ↔ s ≤ k ∧ k < s + w * keys_per_worker s e w) ∧
    ((∀ k, assigned s e w k ↔ s ≤ k ∧ k < e) ↔ w ∣ (e - s)) :=
  ⟨worker_disjoint s e w, assigned_iff s e w hw, assigned_union_iff s e w hw⟩

/-- C1 witness: the amended statement instantiated at `(8, 16, 2)`, where the
worker count divides the span and the union is exact. -/
theorem C1_witness :
    (∀ i j k, i < 2 → j < 2 →
      workerLo 8 16 2 i ≤ k → k < workerHi 8 16 2 i →
      workerLo 8 16 2 j ≤ k → k < workerHi 8 16 2 j → i = j) ∧
    (∀ k, assigned 8 16 2 k ↔ 8 ≤ k ∧ k < 8 + 2 * keys_per_worker 8 16 2) ∧
    ((∀ k, assigned 8 16 2 k ↔ 8 ≤ k ∧ k < 16) ↔ 2 ∣ (16 - 8)) :=
  C1_amended 8 16 2 (by omega)

/-- C2: the sequential scan has no Exhausted outcome.  For the concrete
configuration of puzzle 4 with custom target "x" (which matches no key of
[8,15]), the checked-count does reach `end - start + 1 = 8`, but the main
loop then spins forever: for every fuel bound it is still `running`, because
p73.py's `while True` loop exits only when a key is found. -/
theorem C2_code_eval :
    p73Configure 4 (some ['x']) = some ⟨8, 15, ['x']⟩ ∧
    p73TotalKeys ⟨8, 15, ['x']⟩ = 8 ∧
    (∀ fuel, p73MainLoop ⟨8, 15, ['x']⟩ (fuel + 1) 0 = .running 8) := by
  refine ⟨rfl, rfl, ?_⟩
  intro fuel
  have hscan : scan_sequential ⟨8, 15, ['x']⟩ (8 + 0) (8 + 0 + 10000) 0 = (none, 8) := by
    unfold scan_sequential
    dsimp only
    norm_num
    have := scanSeqGo_no_match ['x'] (by decide) 8 8 0 (by omega) (by decide)
    simpa using this
  rw [p73MainLoop_step_none ⟨8, 15, ['x']⟩ fuel 0 8 hscan]
  exact p73MainLoop_stationary ⟨8, 15, ['x']⟩ 8 rfl fuel

/-- C3: the full pipeline of the code (uncompressed public key) maps private
key 1 to the address 1EHNa6Q4Jz2uvNExL497mE43ikXhwF6kZm, not to the puzzle-1
address 1BgGZ9tcN4rm9KBzDn7KprQz87SZ26SAMH stored in the scanner's own
`puzzle_addresses` table (that string is the compressed-key address of key 1),
so the known-vector check fails and the scanner can never match puzzle 1. -/
theorem C3_code_eval :
    private_key_to_address 1 =
      some ['1','E','H','N','a','6','Q','4','J','z','2','u','v','N','E','x','L','4','9','7','m','E','4','3','i','k','X','h','w','F','6','k','Z','m'] ∧
    (p73Scanner 1).target_address =
      ['1','B','g','G','Z','9','t','c','N','4','r','m','9','K','B','z','D','n','7','K','p','r','Q','z','8','7','S','Z','2','6','S','A','M','H'] ∧
    private_key_to_address 1 ≠ some ((p73Scanner 1).target_address) := by
  refine ⟨by decide, by decide, by decide⟩

/-- C4: for every 20-byte Hash160 value, decoding the Base58Check address
produced from it passes checksum verification and, after stripping the
version byte, recovers exactly the original bytes. -/
theorem C4_theorem (h : List Nat) (_hlen : h.length = 20) (hb : ∀ b ∈ h, b < 256) :
    b58decode_check (hash160ToAddress h) = some (0 :: h) ∧
    (b58decode_check (hash160ToAddress h)).map (List.drop 1) = some h := by
  have hrt := b58decode_check_hash160ToAddress h hb
  refine ⟨hrt, ?_⟩
  rw [hrt]
  rfl

/-- C4 witness: the round trip evaluated at the all-zero 20-byte hash. -/
theorem C4_witness :
    b58decode_check (hash160ToAddress (List.replicate 20 0)) =
      some (0 :: List.replicate 20 0) ∧
    (b58decode_check (hash160ToAddress (List.replicate 20 0))).map (List.drop 1) =
      some (List.replicate 20 0) :=
  C4_theorem (List.replicate 20 0) (by decide) (by decide)

/-- C6 counterexample: in p73.py the basic scanner materializes the full
Base58 address string for every candidate during scanning and compares
strings.  Scanning puzzle 2's range [2,3] (whose compressed-key target matches
neither uncompressed-key address) materializes both address strings even
though no match is ever confirmed. -/
theorem C6_counterexample :
    scan_sequential_trace (p73Scanner 2).target_address 2 2 =
      [hash160ToAddress (ripemd160 (sha256 (pubkeyBytes 2))),
       hash160ToAddress (ripemd160 (sha256 (pubkeyBytes 3)))] ∧
    scan_sequential (p73Scanner 2) 2 10002 0 = (none, 2) := by
  constructor
  · decide
  · decide

/-- C6 amended: the optimized scanner compares raw hash160 bytes, the basic
scanner compares re-encoded Base58 address strings; the two criteria decide
the same set of matching keys because the hash160-to-address encoding is
injective. -/
theorem C6_amended (k : Nat) (hk tH : List Nat)
    (hder : fast_private_to_hash160 k = some hk) (htb : ∀ b ∈ tH, b < 256) :
    hk = tH ↔ hash160ToAddress hk = hash160ToAddress tH := by
  constructor
  · intro he
    rw [he]
  · intro he
    have h1 : ∀ b ∈ hk, b < 256 := by
      have hkval : ripemd160 (sha256 (pubkeyBytes k)) = hk := by
        by_cases hv : 1 ≤ k ∧ k < secpN
        · have := fast_private_to_hash160_valid k hv.1 hv.2
          rw [this] at hder
          injection hder
        · simp [fast_private_to_hash160, hv] at hder
      rw [← hkval]
      exact ripemd160_mem_lt _
    have r1 := b58decode_check_hash160ToAddress hk h1
    have r2 := b58decode_check_hash160ToAddress tH htb
    rw [he, r2] at r1
    injection r1 with r1
    injection r1 with hhd htl
    exact htl.symm

/-- C6 witness: the equivalence instantiated at key 1 against its own
hash160. -/
theorem C6_witness :
    ripemd160 (sha256 (pubkeyBytes 1)) = ripemd160 (sha256 (pubkeyBytes 1)) ↔
      hash160ToAddress (ripemd160 (sha256 (pubkeyBytes 1))) =
        hash160ToAddress (ripemd160 (sha256 (pubkeyBytes 1))) :=
  C6_amended 1 (ripemd160 (sha256 (pubkeyBytes 1))) (ripemd160 (sha256 (pubkeyBytes 1)))
    (fast_private_to_hash160_valid 1 (by omega) (by decide))
    (ripemd160_mem_lt _)

/-- C7 counterexample: for puzzle 4 (no known address) with no caller-supplied
target, configuration succeeds with an empty-string target instead of failing,
and the scan then proceeds: after one main-loop iteration 8 candidate keys
have been checked.  The optimized scanner likewise proceeds with
`target_hash160 = None`. -/
theorem C7_counterexample :
    p73Configure 4 none = some ⟨8, 15, []⟩ ∧
    p73MainLoop ⟨8, 15, []⟩ 1 0 = .running 8 ∧
    (p732Scanner 4).target_hash160 = none := by
  refine ⟨rfl, ?_, rfl⟩
  have hscan : scan_sequential ⟨8, 15, []⟩ (8 + 0) (8 + 0 + 10000) 0 = (none, 8) := by
    unfold scan_sequential
    dsimp only
    norm_num
    have := scanSeqGo_no_match [] (by decide) 8 8 0 (by omega) (by decide)
    simpa using this
  rw [p73MainLoop_step_none ⟨8, 15, []⟩ 0 0 8 hscan]
  rfl

/-- C7 amended: when neither a known puzzle address nor a caller-supplied
address is available, no error is raised: p73.py proceeds with the empty
string as target (which can never match, since every derived address starts
with '1'), and p732.py proceeds with `target_hash160 = None`. -/
theorem C7_amended (p : Nat) (h1 : 1 ≤ p) (h2 : p ≤ 256)
    (h73 : puzzle_addresses_73.find? (fun q => q.1 == p) = none)
    (h732 : puzzle_addresses_732.find? (fun q => q.1 == p) = none) :
    p73Configure p none = some ⟨2 ^ (p - 1), 2 ^ p - 1, []⟩ ∧
    (p732Scanner p).target_hash160 = none := by
  constructor
  · unfold p73Configure p73Scanner
    rw [if_neg (by omega), h73]
    simp
  · unfold p732Scanner
    rw [h732]
    simp [p732TargetHash]

/-- C7 witness: the amended statement instantiated at puzzle 4. -/
theorem C7_witness :
    p73Configure 4 none = some ⟨2 ^ (4 - 1), 2 ^ 4 - 1, []⟩ ∧
    (p732Scanner 4).target_hash160 = none :=
  C7_amended 4 (by omega) (by omega) (by rfl) (by rfl)

/-- C8: a candidate whose derivation fails is skipped and the batch continues
with the remaining candidates: if everything before position `j` fails to
match (including by derivation failure) and the candidate at `j` matches, the
batch returns the match at `j`; and a batch with no matching candidate
completes and returns `none` — per-candidate errors never abort the batch and
never escape. -/
theorem C8_theorem (cfg : P732Cfg) (s n : Nat) :
    (∀ j h, j < n → s + j ≤ cfg.end_range →
      (∀ i, i < j → ¬ batchMatches cfg (s + i)) →
      fast_private_to_hash160 (s + j) = some h → cfg.target_hash160 = some h →
      batch_scan cfg s n = some ⟨s + j, hash160ToAddress h⟩) ∧
    ((∀ i, i < n → ¬ batchMatches cfg (s + i)) → batch_scan cfg s n = none) :=
  ⟨fun j h hj hle hprev hd ht => batchScanGo_finds cfg n s j h hj hle hprev hd ht,
   fun hnm => batchScanGo_none cfg n s hnm⟩

/-- C8 witness: a batch starting at key 0 (an invalid scalar whose derivation
fails) still finds the matching key 1 right after it. -/
theorem C8_witness :
    batch_scan ⟨1, 100, [], some (ripemd160 (sha256 (pubkeyBytes 1)))⟩ 0 3 =
      some ⟨0 + 1, hash160ToAddress (ripemd160 (sha256 (pubkeyBytes 1)))⟩ :=
  (C8_theorem ⟨1, 100, [], some (ripemd160 (sha256 (pubkeyBytes 1)))⟩ 0 3).1 1
    (ripemd160 (sha256 (pubkeyBytes 1))) (by omega) (by decide)
    (fun i hi => by
      have hi0 : i = 0 := by omega
      subst hi0
      rintro ⟨h, hcon, _⟩
      simp [fast_private_to_hash160] at hcon)
    (fast_private_to_hash160_valid (0 + 1) (by omega) (by decide))
    rfl

/-- C9: both scanner classes configure puzzle `n` as
`[2^(n-1), 2^n - 1]` with exactly `2^(n-1)` keys, and puzzle 73 in particular
as `[2^72, 2^73 - 1]`; but range.py's hard-coded END_HEX for puzzle 73 is
`2^72 + 2^52 - 1`, not `2^73 - 1`, covering only `2^52` of the `2^72` keys. -/
theorem C9_code_eval :
    (∀ n, 1 ≤ n → n ≤ 256 →
      (p73Scanner n).start_range = 2 ^ (n - 1) ∧
      (p73Scanner n).end_range = 2 ^ n - 1 ∧
      (p732Scanner n).start_range = 2 ^ (n - 1) ∧
      (p732Scanner n).end_range = 2 ^ n - 1 ∧
      (p73Scanner n).start_range ≤ (p73Scanner n).end_range ∧
      p73TotalKeys (p73Scanner n) = 2 ^ (n - 1)) ∧
    RANGE_START_HEX = 2 ^ 72 ∧
    RANGE_END_HEX = 2 ^ 72 + 2 ^ 52 - 1 ∧
    RANGE_END_HEX ≠ 2 ^ 73 - 1 ∧
    (p732Scanner 73).start_range = 2 ^ 72 ∧
    (p732Scanner 73).end_range = 2 ^ 73 - 1 := by
  refine ⟨?_, by decide, by decide, by decide, rfl, rfl⟩
  intro n h1 h2
  obtain ⟨m, rfl⟩ : ∃ m, n = m + 1 := ⟨n - 1, by omega⟩
  have hpow : 2 ^ (m + 1) = 2 * 2 ^ m := by
    rw [pow_succ, Nat.mul_comm]
  have hpos : 0 < 2 ^ m := pow_pos (by norm_num) m
  refine ⟨rfl, rfl, rfl, rfl, ?_, ?_⟩
  · show 2 ^ (m + 1 - 1) ≤ 2 ^ (m + 1) - 1
    rw [Nat.add_sub_cancel, hpow]
    set X := 2 ^ m with hX
    omega
  · show 2 ^ (m + 1) - 1 - 2 ^ (m + 1 - 1) + 1 = 2 ^ (m + 1 - 1)
    rw [Nat.add_sub_cancel, hpow]
    set X := 2 ^ m with hX
    omega

/-- C9 witness: the interval facts instantiated at puzzle 73. -/
theorem C9_witness :
    (p73Scanner 73).start_range = 2 ^ (73 - 1) ∧
    (p73Scanner 73).end_range = 2 ^ 73 - 1 ∧
    (p732Scanner 73).start_range = 2 ^ (73 - 1) ∧
    (p732Scanner 73).end_range = 2 ^ 73 - 1 ∧
    (p73Scanner 73).start_range ≤ (p73Scanner 73).end_range ∧
    p73TotalKeys (p73Scanner 73) = 2 ^ (73 - 1) :=
  C9_code_eval.1 73 (by omega) (by omega)

end BTCScan
